import Mathlib

/-!
# Verification of the filesmith / ooxlm repository

A shallow embedding of the parts of the repository that the verified
properties talk about, together with proofs about that embedding.

* `src/ooxlm/common/zip_ops.py` — zip archives are modelled as ordered lists
  of entries (name, metadata, content bytes); `rewrite_zip`, `copy_zip`,
  `load_members`, `list_members` and `ZipFile.read` are translated function
  by function.
* `src/ooxlm/docx/simple_docx_editor.py` and
  `src/ooxlm/pptx/simple_pptx_editor.py` — a parsed XML document is modelled
  by the sequence of element nodes that `ElementTree.iter()` yields in
  document order; each node carries its tag and optional text, which is all
  the editors ever inspect.
* `src/filesmith/transfer.py` and `src/filesmith/core.py` — the filesystem
  is modelled as a map from path to content plus a set of directories;
  `transfer_files` and `_copy_file_action` are translated step by step,
  with Python exceptions modelled by `Except`.
-/

namespace Filesmith

/-! ## Association-list helpers (model of Python `dict` / lookups) -/

/-- Lookup in an association list: the value at the first matching key.
Models `d[k]` / `d.get(k)` on a Python `dict` whose items are listed in
insertion order (a `dict` never holds a key twice). -/
def alookup {α : Type} : List (String × α) → String → Option α
  | [], _ => none
  | p :: rest, k => if p.1 = k then some p.2 else alookup rest k

/-- Model of the Python `dict` assignment `d[k] = v`: if the key is present
its value is updated in place (position kept), otherwise the pair is
appended (insertion order). -/
def dictInsert {α : Type} (l : List (String × α)) (k : String) (v : α) :
    List (String × α) :=
  if k ∈ l.map Prod.fst then
    l.map (fun p => if p.1 = k then (k, v) else p)
  else
    l ++ [(k, v)]

/-! ## Zip archive model (`src/ooxlm/common/zip_ops.py`) -/

/-- The per-entry metadata a `ZipInfo` carries and `rewrite_zip` preserves:
modification timestamp, compression method, permission bits. -/
structure Metadata where
  timestamp : Nat
  compression : Nat
  permissions : Nat
deriving DecidableEq, Repr

/-- One zip member: a name, its `ZipInfo` metadata, and its content bytes. -/
structure Entry where
  name : String
  meta : Metadata
  data : List Nat
deriving DecidableEq, Repr

/-- A zip archive: the ordered list of its entries (`ZipFile.infolist()`). -/
abbrev Archive := List Entry

/-- The default metadata `ZipFile.writestr(name, data)` assigns to a member
written without an explicit `ZipInfo` (fresh timestamp, the archive's
compression method, default permissions). Its concrete numbers are
irrelevant to every property below; only that it is one fixed value. -/
def defaultMeta : Metadata := ⟨0, 8, 0⟩

/-- `ZipFile.read(name)`: content bytes of the first entry carrying `name`,
or `none` (Python: `KeyError`) when no entry does. -/
def zread (a : Archive) (n : String) : Option (List Nat) :=
  (a.find? (fun e => e.name == n)).map Entry.data

/-- `list_members` (zip_ops.py:13): the ordered list of member names,
`ZipFile.namelist()`. -/
def listMembers (a : Archive) : List String := a.map Entry.name

/-- The first loop of `rewrite_zip` (zip_ops.py:152-166): walk the source
entries in order; a name in `drop` is skipped, a name in `replacements`
is written with its original `ZipInfo` and the new bytes, everything else
is copied verbatim (`zin.read(name)` + `zout.writestr(info, data)`).
`src` is the whole source archive that `zin.read` consults. -/
def copyPass (reps : List (String × List Nat)) (drp : List String)
    (src : Archive) : Archive → Archive
  | [] => []
  | e :: rest =>
    if e.name ∈ drp then copyPass reps drp src rest
    else
      match alookup reps e.name with
      | some d => ⟨e.name, e.meta, d⟩ :: copyPass reps drp src rest
      | none =>
          ⟨e.name, e.meta, (zread src e.name).getD []⟩ ::
            copyPass reps drp src rest

/-- The `handled` set accumulated by the first loop of `rewrite_zip`
(zip_ops.py:149,161): names of source entries that were not dropped and
whose name is a key of `replacements`. -/
def handledNames (reps : List (String × List Nat)) (drp : List String) :
    Archive → List String
  | [] => []
  | e :: rest =>
    if e.name ∈ drp then handledNames reps drp rest
    else
      match alookup reps e.name with
      | some _ => e.name :: handledNames reps drp rest
      | none => handledNames reps drp rest

/-- `rewrite_zip` (zip_ops.py:108-173): the copy pass over the source
entries followed by the addition pass, which appends every replacement
whose name is not in `handled`, with default metadata. -/
def rewriteZip (a : Archive) (reps : List (String × List Nat))
    (drp : List String) : Archive :=
  copyPass reps drp a a ++
    (reps.filter (fun p => decide (p.1 ∉ handledNames reps drp a))).map
      (fun p => ⟨p.1, defaultMeta, p.2⟩)

/-- `copy_zip` (zip_ops.py:176-199): for every source entry in order, write
its original `ZipInfo` with the bytes `zin.read(info.filename)` returns. -/
def copyZip (a : Archive) : Archive :=
  a.map (fun e => ⟨e.name, e.meta, (zread a e.name).getD []⟩)

/-- The loop of `load_members` (zip_ops.py:78-83): fill a `dict` with
`result[name] = zf.read(name)`; the first missing name raises `KeyError`
(modelled as `Except.error` carrying that name), which destroys the local
`dict`, so no partial mapping escapes. -/
def loadMembersAux (a : Archive) (acc : List (String × List Nat)) :
    List String → Except String (List (String × List Nat))
  | [] => Except.ok acc
  | n :: rest =>
    match zread a n with
    | some d => loadMembersAux a (dictInsert acc n d) rest
    | none => Except.error n

/-- `load_members` (zip_ops.py:58-83). -/
def loadMembers (a : Archive) (names : List String) :
    Except String (List (String × List Nat)) :=
  loadMembersAux a [] names

/-- The keys of a successful `load_members` result (`[]` on failure);
used to state properties about the returned mapping without binders. -/
def exceptKeys : Except String (List (String × List Nat)) → List String
  | Except.ok r => r.map Prod.fst
  | Except.error _ => []

/-- Whether `load_members` returned normally rather than raising. -/
def exceptIsOk : Except String (List (String × List Nat)) → Bool
  | Except.ok _ => true
  | Except.error _ => false

/-! ## XML document model (`simple_docx_editor.py`, `simple_pptx_editor.py`)

A parsed tree is represented by the flat sequence of element nodes that
`root.iter()` yields in document order — the only view of the tree either
editor ever takes. Each node carries its qualified tag and its optional
`.text`. -/

/-- One element node as the editors see it: qualified tag and `.text`
(`none` models a Python `.text` of `None`). -/
structure XNode where
  tag : String
  text : Option String
deriving DecidableEq, Repr

/-- A document: the nodes of `root.iter()` in document order. -/
abbrev Doc := List XNode

/-- The test `node.tag.endswith("}t")` used by `_iter_text_nodes` in both
editors (simple_docx_editor.py:86, simple_pptx_editor.py:89). -/
def isTextNode (nd : XNode) : Bool :=
  decide (nd.tag.data.reverse.take 2 = ['t', '\x7d'])

/-- Python truthiness of `node.text`: `None` and `""` are falsy. -/
def truthyText : Option String → Bool
  | some t => decide (t ≠ "")
  | none => false

/-! ### `str.replace` model

`str.replace(old, new)` scans left to right; at each position a match of
`old` is replaced by `new` and the scan resumes after it, otherwise one
character is kept. The fuel argument (always instantiated with the string
length, which bounds the number of steps whenever `old ≠ ""`) makes the
definition structurally recursive. -/

/-- `bs` starts with `asPat` (character-wise). -/
def startsWithChars : List Char → List Char → Bool
  | [], _ => true
  | _ :: _, [] => false
  | a :: as, b :: bs => decide (a = b) && startsWithChars as bs

/-- `old in s` (Python substring containment) on character lists. -/
def containsSub (old : List Char) : List Char → Bool
  | [] => startsWithChars old []
  | c :: rest => startsWithChars old (c :: rest) || containsSub old rest

/-- One fuel-bounded left-to-right replacement scan. -/
def replaceAllFuel (old new : List Char) : Nat → List Char → List Char
  | _, [] => []
  | 0, s => s
  | fuel + 1, c :: rest =>
    if startsWithChars old (c :: rest) then
      new ++ replaceAllFuel old new fuel (List.drop old.length (c :: rest))
    else
      c :: replaceAllFuel old new fuel rest

/-- `s.replace(old, new)` for non-empty `old` (the only way the editors
call it: `replace` returns before this point when `old` is empty). -/
def sreplace (old new s : String) : String :=
  ⟨replaceAllFuel old.data new.data s.data.length s.data⟩

/-- `old in s` on strings. -/
def scontains (old s : String) : Bool := containsSub old.data s.data

/-- `separator.join(texts)` (Python `str.join`). -/
def joinSep (sep : String) : List String → String
  | [] => ""
  | [t] => t
  | t :: rest => t ++ sep ++ joinSep sep rest

/-- The collection loop of `get_text` in both editors
(simple_docx_editor.py:106-109, simple_pptx_editor.py:110-113): walk the
node sequence, keep `node.text` whenever the node is a text node and its
text is truthy. -/
def collectTexts : Doc → List String
  | [] => []
  | nd :: rest =>
    if isTextNode nd && truthyText nd.text then
      (nd.text.getD "") :: collectTexts rest
    else collectTexts rest

/-- `SimpleDocxEditor.get_text(separator)` (simple_docx_editor.py:92-110). -/
def docxGetText (sep : String) (d : Doc) : String := joinSep sep (collectTexts d)

/-- The mutation loop of `replace` in both editors
(simple_docx_editor.py:136-144): for each text node with truthy text,
compute `node.text.replace(old, new)`; when it differs, store it and bump
the count. Returns the rewritten node sequence and the count. -/
def replaceDoc (old new : String) : Doc → Doc × Nat
  | [] => ([], 0)
  | nd :: rest =>
    let r := replaceDoc old new rest
    if isTextNode nd && truthyText nd.text then
      let t := nd.text.getD ""
      let t' := sreplace old new t
      if t' ≠ t then (⟨nd.tag, some t'⟩ :: r.1, r.2 + 1)
      else (nd :: r.1, r.2)
    else (nd :: r.1, r.2)

/-- `SimpleDocxEditor.replace(old, new)` (simple_docx_editor.py:112-144):
empty `old` returns 0 without touching the document. -/
def docxReplace (old new : String) (d : Doc) : Doc × Nat :=
  if old = "" then (d, 0) else replaceDoc old new d

/-- The expected rewrite of a node sequence: every text node with truthy
text has all occurrences of `old` replaced by `new`; other nodes are kept.
Stated from the spec's description of `replace_text`, for comparison with
`replaceDoc`. -/
def replacedDoc (old new : String) (d : Doc) : Doc :=
  d.map (fun nd =>
    if isTextNode nd && truthyText nd.text then
      ⟨nd.tag, some (sreplace old new (nd.text.getD ""))⟩
    else nd)

/-- A pptx editor's slide table: slide entry name → node sequence of that
slide's parsed tree, in the sorted order `_load_slides` fixes. -/
abbrev Slides := List (String × Doc)

/-- `_iter_text_nodes` of the pptx editor walks every slide in table order;
this is the corresponding concatenation of per-slide text collections. -/
def pptxCollect : Slides → List String
  | [] => []
  | s :: rest => collectTexts s.2 ++ pptxCollect rest

/-- `SimplePptxEditor.get_text(separator)` (simple_pptx_editor.py:95-114). -/
def pptxGetText (sep : String) (sl : Slides) : String := joinSep sep (pptxCollect sl)

/-- The per-slide mutation loop of `SimplePptxEditor.replace`. -/
def pptxReplaceSlides (old new : String) : Slides → Slides × Nat
  | [] => ([], 0)
  | s :: rest =>
    let r := replaceDoc old new s.2
    let rs := pptxReplaceSlides old new rest
    ((s.1, r.1) :: rs.1, r.2 + rs.2)

/-- `SimplePptxEditor.replace(old, new)` (simple_pptx_editor.py:116-143). -/
def pptxReplace (old new : String) (sl : Slides) : Slides × Nat :=
  if old = "" then (sl, 0) else pptxReplaceSlides old new sl

/-! ## Filesystem and transfer model (`transfer.py`, `core.py`) -/

/-- The filesystem as the transfer layer observes it: regular files with
their contents, and the set of directories. -/
structure FS where
  files : List (String × List Nat)
  dirs : List String
deriving DecidableEq, Repr

/-- `transfer_files`' `mode` argument. -/
inductive TMode | copy | move
deriving DecidableEq, Repr

/-- `transfer_files`' `on_conflict` argument. -/
inductive OnConflict | skip | overwrite | error
deriving DecidableEq, Repr

/-- The exceptions the transfer layer can raise: `FileExistsError`
(conflict policy `error`) and `FileNotFoundError` (source vanished). -/
inductive TError where
  | fileExists : String → TError
  | fileNotFound : String → TError
deriving DecidableEq, Repr

/-- `Path.exists()` — true for a file or a directory at that path. -/
def fsExists (fs : FS) (p : String) : Bool :=
  (alookup fs.files p).isSome || decide (p ∈ fs.dirs)

/-- `src.name` (pathlib): the final path component. -/
def lastComponent (p : String) : String :=
  ⟨p.data.foldl (fun acc c => if c = '/' then [] else acc ++ [c]) []⟩

/-- `dest_root / name` (pathlib `/`). -/
def pathJoin (d n : String) : String := d ++ "/" ++ n

/-- `dest_root.mkdir(parents=True, exist_ok=True)`: record the directory
when it is missing. -/
def mkdirP (fs : FS) (p : String) : FS :=
  if p ∈ fs.dirs then fs else ⟨fs.files, fs.dirs ++ [p]⟩

/-- `shutil.copy2(src, dest)`: fails with `FileNotFoundError` when the
source is gone, else writes the source's bytes at `dest` (overwriting). -/
def fsCopy2 (fs : FS) (src dest : String) : Except TError FS :=
  match alookup fs.files src with
  | none => Except.error (TError.fileNotFound src)
  | some d => Except.ok ⟨dictInsert fs.files dest d, fs.dirs⟩

/-- `shutil.move(src, dest)`: like copy, then the source is gone. -/
def fsMove (fs : FS) (src dest : String) : Except TError FS :=
  match alookup fs.files src with
  | none => Except.error (TError.fileNotFound src)
  | some d =>
      Except.ok ⟨dictInsert (fs.files.filter (fun p => decide (p.1 ≠ src))) dest d,
        fs.dirs⟩

/-- The per-file loop of `transfer_files` (transfer.py:54-74): conflict
check (`skip` continues, `error` raises, `overwrite` falls through), then
record the `(src, dest)` pair, then — unless `dry_run` — perform the copy
or move; an exception aborts the whole call, losing `ops`. -/
def transferGo (destRoot : String) (mode : TMode) (onConflict : OnConflict)
    (dryRun : Bool) :
    FS → List String → List (String × String) →
      Except TError (FS × List (String × String))
  | fs, [], ops => Except.ok (fs, ops)
  | fs, src :: rest, ops =>
    let dest := pathJoin destRoot (lastComponent src)
    if fsExists fs dest ∧ onConflict = OnConflict.skip then
      transferGo destRoot mode onConflict dryRun fs rest ops
    else if fsExists fs dest ∧ onConflict = OnConflict.error then
      Except.error (TError.fileExists dest)
    else
      let ops' := ops ++ [(src, dest)]
      if dryRun then transferGo destRoot mode onConflict dryRun fs rest ops'
      else
        match mode with
        | TMode.copy =>
          match fsCopy2 fs src dest with
          | Except.ok fs' => transferGo destRoot mode onConflict dryRun fs' rest ops'
          | Except.error e => Except.error e
        | TMode.move =>
          match fsMove fs src dest with
          | Except.ok fs' => transferGo destRoot mode onConflict dryRun fs' rest ops'
          | Except.error e => Except.error e

/-- `transfer_files` (transfer.py:20-76): `dest_root.mkdir(parents=True,
exist_ok=True)` runs first — before any dry-run check — then the loop. -/
def transferFiles (fs : FS) (files : List String) (destRoot : String)
    (mode : TMode) (onConflict : OnConflict) (dryRun : Bool) :
    Except TError (FS × List (String × String)) :=
  transferGo destRoot mode onConflict dryRun (mkdirP fs destRoot) files []

/-- `_copy_file_action` (core.py:57-66): outside dry-run it runs
`shutil.copy2` and swallows `FileNotFoundError` (`except ...: pass`). -/
def copyFileAction (fs : FS) (src dest : String) (dryRun : Bool) : FS :=
  if dryRun then fs
  else
    match fsCopy2 fs src dest with
    | Except.ok fs' => fs'
    | Except.error _ => fs

/-- The final filesystem of a successful transfer (`none` on failure);
binder-free access for statements. -/
def okFS : Except TError (FS × List (String × String)) → Option FS
  | Except.ok p => some p.1
  | Except.error _ => none

/-- The `(source, destination)` list a successful transfer returns
(`none` on failure); binder-free access for statements. -/
def okOps : Except TError (FS × List (String × String)) →
    Option (List (String × String))
  | Except.ok p => some p.2
  | Except.error _ => none

/-! ## Theorems -/

/-- C1: the claim says a name present in both the drop set and the
replacements mapping is omitted from the output entirely. The code does
not satisfy this: on an archive with the single entry `x`, with `x` both
dropped and replaced, the copy pass skips `x` without marking it handled,
and the addition pass then writes the replacement bytes under default
metadata — the output archive does contain an entry named `x`. -/
theorem rewrite_zip_readds_dropped_replacement :
    rewriteZip [⟨"x", ⟨1, 2, 3⟩, [65]⟩] [("x", [66])] ["x"]
      = [⟨"x", defaultMeta, [66]⟩]
    ∧ "x" ∈ listMembers (rewriteZip [⟨"x", ⟨1, 2, 3⟩, [65]⟩] [("x", [66])] ["x"]) := by
  constructor
  · rfl
  · decide

/-- C4: the claim says a dry-run transfer performs no filesystem writes,
in particular creates no directory. The code runs
`dest_root.mkdir(parents=True, exist_ok=True)` before the dry-run check:
starting from a filesystem whose directory set is empty, a dry-run
transfer returns with the destination directory `dst` created (while
still reporting the would-be `(source, destination)` pair). -/
theorem transfer_dry_run_creates_destination_dir :
    transferFiles ⟨[("a/f.txt", [1])], []⟩ ["a/f.txt"] "dst"
        TMode.copy OnConflict.skip true
      = Except.ok (⟨[("a/f.txt", [1])], ["dst"]⟩, [("a/f.txt", "dst/f.txt")]) := by
  rfl

theorem alookup_isSome_iff {α : Type} (l : List (String × α)) (k : String) :
    (alookup l k).isSome = true ↔ k ∈ l.map Prod.fst := by
  induction l with
  | nil => simp [alookup]
  | cons p rest ih =>
      by_cases h : p.1 = k
      · simp [alookup, h]
      · simp [alookup, h, ih, Ne.symm h]

theorem alookup_eq_none_iff {α : Type} (l : List (String × α)) (k : String) :
    alookup l k = none ↔ k ∉ l.map Prod.fst := by
  rw [← alookup_isSome_iff]
  cases alookup l k <;> simp

theorem zread_of_mem {a : Archive} {e : Entry}
    (ha : (listMembers a).Nodup) (he : e ∈ a) :
    zread a e.name = some e.data := by
  induction a with
  | nil => cases he
  | cons f rest ih =>
      rcases List.mem_cons.mp he with rfl | hmem
      · simp [zread, List.find?_cons_of_pos]
      · have hne : f.name ≠ e.name := by
          intro heq
          have : e.name ∈ rest.map Entry.name := List.mem_map_of_mem Entry.name hmem
          rw [← heq] at this
          exact (List.nodup_cons.mp ha).1 this
        have tail := ih (List.nodup_cons.mp ha).2 hmem
        simpa [zread, List.find?_cons_of_neg, hne] using tail

theorem copyPass_names (reps : List (String × List Nat)) (drp : List String)
    (src : Archive) (l : Archive) :
    (copyPass reps drp src l).map Entry.name
      = (l.map Entry.name).filter (fun n => decide (n ∉ drp)) := by
  induction l with
  | nil => simp [copyPass]
  | cons e rest ih =>
      by_cases h : e.name ∈ drp
      · simp [copyPass, h, ih]
      · cases halo : alookup reps e.name <;> simp [copyPass, h, halo, ih]

theorem handledNames_eq (reps : List (String × List Nat)) (drp : List String)
    (l : Archive) :
    handledNames reps drp l
      = (l.map Entry.name).filter
          (fun n => decide (n ∉ drp) && (alookup reps n).isSome) := by
  induction l with
  | nil => simp [handledNames]
  | cons e rest ih =>
      by_cases h : e.name ∈ drp
      · simp [handledNames, h, ih]
      · cases halo : alookup reps e.name <;> simp [handledNames, h, halo, ih]

theorem mem_handledNames {reps : List (String × List Nat)} {drp : List String}
    {l : Archive} {n : String} :
    n ∈ handledNames reps drp l
      ↔ n ∈ l.map Entry.name ∧ n ∉ drp ∧ (alookup reps n).isSome = true := by
  rw [handledNames_eq]
  simp [List.mem_filter, and_assoc]

theorem map_fst_filter_fst {α : Type} (l : List (String × α)) (f : String → Bool) :
    (l.filter (fun p => f p.1)).map Prod.fst = (l.map Prod.fst).filter f := by
  induction l with
  | nil => simp
  | cons p rest ih =>
      by_cases h : f p.1 = true
      · simp [List.filter_cons, h, ih]
      · simp only [Bool.not_eq_true] at h
        simp [List.filter_cons, h, ih]

theorem mem_copyPass_of_untouched {a : Archive}
    {reps : List (String × List Nat)} {drp : List String} {e : Entry}
    (hz : zread a e.name = some e.data)
    (hdrop : e.name ∉ drp) (hrep : alookup reps e.name = none) :
    ∀ {l : Archive}, e ∈ l → e ∈ copyPass reps drp a l := by
  intro l hl
  induction l with
  | nil => cases hl
  | cons f rest ih =>
      rcases List.mem_cons.mp hl with rfl | hmem
      · simp only [copyPass, if_neg hdrop, hrep]
        rw [hz]
        exact List.mem_cons_self _ _
      · by_cases h : f.name ∈ drp
        · simp only [copyPass, if_pos h]
          exact ih hmem
        · cases halo : alookup reps f.name <;>
            · simp only [copyPass, if_neg h, halo]
              exact List.mem_cons_of_mem _ (ih hmem)

theorem rewriteZip_names_eq (a : Archive) (reps : List (String × List Nat))
    (drp : List String)
    (hd : ∀ n ∈ reps.map Prod.fst, n ∉ drp) :
    listMembers (rewriteZip a reps drp)
      = (listMembers a).filter (fun n => decide (n ∉ drp))
        ++ (reps.map Prod.fst).filter (fun n => decide (n ∉ listMembers a)) := by
  unfold rewriteZip listMembers
  rw [List.map_append]
  congr 1
  · exact copyPass_names reps drp a a
  · rw [List.map_map]
    have h1 : (Entry.name ∘ fun p : String × List Nat => Entry.mk p.1 defaultMeta p.2)
        = Prod.fst := rfl
    rw [h1, map_fst_filter_fst reps (fun n => decide (n ∉ handledNames reps drp a))]
    apply List.filter_congr
    intro n hn
    have hnd : n ∉ drp := hd n hn
    have hsome : (alookup reps n).isSome = true := (alookup_isSome_iff reps n).mpr hn
    by_cases hmem : n ∈ a.map Entry.name
    · have : n ∈ handledNames reps drp a := mem_handledNames.mpr ⟨hmem, hnd, hsome⟩
      simp [this, hmem]
    · have : n ∉ handledNames reps drp a := fun hcon =>
        hmem (mem_handledNames.mp hcon).1
      simp [this, hmem]

/-- C2: for a source archive with unique entry names, a replacements
mapping with unique keys, and a drop set disjoint from the replacement
keys, `rewrite_zip` produces an archive whose name set is exactly
`(names(A) − drop) ∪ (keys(replacements) − names(A))`, with no duplicate
name, and every untouched entry (neither dropped nor replaced) appears in
the output with its original name, metadata and bytes. -/
theorem rewrite_zip_output_names_spec
    (a : Archive) (reps : List (String × List Nat)) (drp : List String)
    (ha : (listMembers a).Nodup) (hr : (reps.map Prod.fst).Nodup)
    (hd : ∀ n ∈ reps.map Prod.fst, n ∉ drp) :
    (∀ n, n ∈ listMembers (rewriteZip a reps drp) ↔
        (n ∈ listMembers a ∧ n ∉ drp)
          ∨ (n ∈ reps.map Prod.fst ∧ n ∉ listMembers a))
    ∧ (listMembers (rewriteZip a reps drp)).Nodup
    ∧ (∀ e ∈ a, e.name ∉ drp → e.name ∉ reps.map Prod.fst →
        e ∈ rewriteZip a reps drp) := by
  have hnames := rewriteZip_names_eq a reps drp hd
  refine ⟨?_, ?_, ?_⟩
  · intro n
    rw [hnames]
    simp [List.mem_filter]
  · rw [hnames]
    refine List.Nodup.append (ha.filter _) (hr.filter _) ?_
    intro n hn1 hn2
    have h1 : n ∈ listMembers a := (List.mem_filter.mp hn1).1
    have h2 := (List.mem_filter.mp hn2).2
    simp only [decide_eq_true_eq] at h2
    exact h2 h1
  · intro e he hdrop hrep
    have hz : zread a e.name = some e.data := zread_of_mem ha he
    have hlo : alookup reps e.name = none := (alookup_eq_none_iff reps e.name).mpr hrep
    exact List.mem_append_left _ (mem_copyPass_of_untouched hz hdrop hlo he)

/-- C2 witness: the spec's own scenario — `{a.txt: A, b.txt: B, c.txt: C}`
rewritten with `{b.txt: B2, new.txt: NEW}` and `drop = {c.txt}` — has a
duplicate-free output name list, and the untouched entry `a.txt` survives
with its original metadata and bytes. -/
theorem rewrite_zip_output_names_spec_witness :
    (listMembers (rewriteZip
        [⟨"a.txt", ⟨1, 1, 1⟩, [65]⟩, ⟨"b.txt", ⟨2, 2, 2⟩, [66]⟩,
          ⟨"c.txt", ⟨3, 3, 3⟩, [67]⟩]
        [("b.txt", [66, 50]), ("new.txt", [78])] ["c.txt"])).Nodup
    ∧ (⟨"a.txt", ⟨1, 1, 1⟩, [65]⟩ : Entry) ∈ rewriteZip
        [⟨"a.txt", ⟨1, 1, 1⟩, [65]⟩, ⟨"b.txt", ⟨2, 2, 2⟩, [66]⟩,
          ⟨"c.txt", ⟨3, 3, 3⟩, [67]⟩]
        [("b.txt", [66, 50]), ("new.txt", [78])] ["c.txt"] := by
  have h := rewrite_zip_output_names_spec
    [⟨"a.txt", ⟨1, 1, 1⟩, [65]⟩, ⟨"b.txt", ⟨2, 2, 2⟩, [66]⟩,
      ⟨"c.txt", ⟨3, 3, 3⟩, [67]⟩]
    [("b.txt", [66, 50]), ("new.txt", [78])] ["c.txt"]
    (by decide) (by decide) (by decide)
  exact ⟨h.2.1, h.2.2 _ (by decide) (by decide) (by decide)⟩

theorem copyPass_nil_nil (src : Archive) (l : Archive) :
    copyPass [] [] src l
      = l.map (fun e => ⟨e.name, e.meta, (zread src e.name).getD []⟩) := by
  induction l with
  | nil => rfl
  | cons e rest ih => simp [copyPass, alookup, ih]

theorem zread_map_transform (g : Entry → List Nat) (n : String) (l : Archive) :
    zread (l.map (fun e => ⟨e.name, e.meta, g e⟩)) n
      = (l.find? (fun e => e.name == n)).map g := by
  induction l with
  | nil => rfl
  | cons e rest ih =>
      cases h : (e.name == n)
      · simp only [zread] at ih
        simpa [zread, List.find?_cons, h] using ih
      · simp [zread, List.find?_cons, h]

theorem zread_copyZip (a : Archive) (n : String) :
    zread (copyZip a) n = zread a n := by
  unfold copyZip
  rw [zread_map_transform (fun e => (zread a e.name).getD []) n a]
  cases hfind : a.find? (fun e => e.name == n) with
  | none => simp [zread, hfind]
  | some e =>
      have hname : e.name = n := by
        have := List.find?_some hfind
        simpa using this
      have hz : zread a n = some e.data := by simp [zread, hfind]
      rw [Option.map_some']
      rw [hname, hz]
      rfl

/-- C5: `copy_zip(A, B)` is the degenerate form of `rewrite_zip` with empty
replacements and drop set: the two produce the same archive entry for
entry, the clone's member list equals the source's in the same order, and
reading any name from the clone returns the same bytes as reading it from
the source. -/
theorem copy_zip_refines_rewrite (a : Archive) :
    copyZip a = rewriteZip a [] []
    ∧ listMembers (copyZip a) = listMembers a
    ∧ ∀ n, zread (copyZip a) n = zread a n := by
  refine ⟨?_, ?_, fun n => zread_copyZip a n⟩
  · simp [rewriteZip, copyPass_nil_nil, copyZip]
  · simp [listMembers, copyZip, List.map_map]

theorem keys_map_update {α : Type} (l : List (String × α)) (k : String) (v : α) :
    (l.map (fun p => if p.1 = k then (k, v) else p)).map Prod.fst
      = l.map Prod.fst := by
  induction l with
  | nil => rfl
  | cons p rest ih =>
      by_cases h : p.1 = k
      · simp [h, ih]
      · simp [h, ih]

theorem keys_dictInsert {α : Type} (l : List (String × α)) (k : String) (v : α) :
    (dictInsert l k v).map Prod.fst
      = if k ∈ l.map Prod.fst then l.map Prod.fst else l.map Prod.fst ++ [k] := by
  unfold dictInsert
  by_cases h : k ∈ l.map Prod.fst
  · simp only [if_pos h]
    exact keys_map_update l k v
  · simp only [if_neg h, List.map_append]
    rfl

theorem mem_keys_dictInsert {α : Type} (l : List (String × α)) (k n : String)
    (v : α) :
    n ∈ (dictInsert l k v).map Prod.fst ↔ n ∈ l.map Prod.fst ∨ n = k := by
  rw [keys_dictInsert]
  by_cases h : k ∈ l.map Prod.fst
  · simp only [if_pos h]
    constructor
    · exact Or.inl
    · rintro (hn | rfl)
      · exact hn
      · exact h
  · simp [if_neg h]

theorem nodup_keys_dictInsert {α : Type} (l : List (String × α)) (k : String)
    (v : α) (h : (l.map Prod.fst).Nodup) :
    ((dictInsert l k v).map Prod.fst).Nodup := by
  rw [keys_dictInsert]
  by_cases hk : k ∈ l.map Prod.fst
  · simpa [if_pos hk] using h
  · simp [if_neg hk, List.nodup_append, h, hk]

theorem loadMembersAux_error_of_first_missing (a : Archive) :
    ∀ (names : List String) (acc : List (String × List Nat)) (m : String),
      names.find? (fun n => (zread a n).isNone) = some m →
      loadMembersAux a acc names = Except.error m := by
  intro names
  induction names with
  | nil => intro acc m h; cases h
  | cons n rest ih =>
      intro acc m h
      rw [List.find?_cons] at h
      cases hz : zread a n with
      | none =>
          rw [hz] at h
          simp only [Option.isNone_none] at h
          cases h
          simp [loadMembersAux, hz]
      | some d =>
          rw [hz] at h
          simp only [Option.isNone_some] at h
          simp only [loadMembersAux, hz]
          exact ih _ m h

theorem loadMembersAux_ok_of_all_present (a : Archive) :
    ∀ (names : List String) (acc : List (String × List Nat)),
      (∀ n ∈ names, (zread a n).isSome = true) →
      ∃ r, loadMembersAux a acc names = Except.ok r
        ∧ (∀ k, k ∈ r.map Prod.fst ↔ k ∈ acc.map Prod.fst ∨ k ∈ names)
        ∧ ((acc.map Prod.fst).Nodup → (r.map Prod.fst).Nodup) := by
  intro names
  induction names with
  | nil =>
      intro acc _
      exact ⟨acc, rfl, by simp, fun h => h⟩
  | cons n rest ih =>
      intro acc hall
      have hn := hall n (List.mem_cons_self n rest)
      cases hz : zread a n with
      | none => rw [hz] at hn; simp at hn
      | some d =>
          have hrest : ∀ m ∈ rest, (zread a m).isSome = true := fun m hm =>
            hall m (List.mem_cons_of_mem n hm)
          obtain ⟨r, hr, hmem, hnd⟩ := ih (dictInsert acc n d) hrest
          refine ⟨r, by simp only [loadMembersAux, hz]; exact hr, ?_, ?_⟩
          · intro k
            rw [hmem k, mem_keys_dictInsert]
            simp only [List.mem_cons]
            tauto
          · intro hacc
            exact hnd (nodup_keys_dictInsert acc n d hacc)

/-- C7: `load_members` is all-or-nothing. If some requested name is
missing, the call fails with the first missing name and no mapping is
returned; if every requested name is present, the call succeeds and the
returned mapping's keys are exactly the requested names (each at most
once). -/
theorem load_members_all_or_nothing (a : Archive) (names : List String) :
    (∀ m, names.find? (fun n => (zread a n).isNone) = some m →
        loadMembers a names = Except.error m)
    ∧ ((∀ n ∈ names, (zread a n).isSome = true) →
        exceptIsOk (loadMembers a names) = true
        ∧ (∀ k, k ∈ exceptKeys (loadMembers a names) ↔ k ∈ names)
        ∧ (exceptKeys (loadMembers a names)).Nodup) := by
  constructor
  · intro m h
    exact loadMembersAux_error_of_first_missing a names [] m h
  · intro hall
    obtain ⟨r, hr, hmem, hnd⟩ := loadMembersAux_ok_of_all_present a names [] hall
    unfold loadMembers
    rw [hr]
    refine ⟨rfl, ?_, ?_⟩
    · intro k
      have := hmem k
      simpa [exceptKeys] using this
    · simpa [exceptKeys] using hnd (by simp)

/-- C7 witness: on the archive `{a.txt: A, b.txt: B}`, requesting
`[a.txt, zzz]` fails with `KeyError` on `zzz` (the first missing name),
while requesting `[a.txt, b.txt]` succeeds with a duplicate-free key set
containing `a.txt`. -/
theorem load_members_all_or_nothing_witness :
    loadMembers [⟨"a.txt", ⟨1, 1, 1⟩, [65]⟩, ⟨"b.txt", ⟨2, 2, 2⟩, [66]⟩]
        ["a.txt", "zzz"] = Except.error "zzz"
    ∧ exceptIsOk (loadMembers
        [⟨"a.txt", ⟨1, 1, 1⟩, [65]⟩, ⟨"b.txt", ⟨2, 2, 2⟩, [66]⟩]
        ["a.txt", "b.txt"]) = true
    ∧ ("a.txt" ∈ exceptKeys (loadMembers
        [⟨"a.txt", ⟨1, 1, 1⟩, [65]⟩, ⟨"b.txt", ⟨2, 2, 2⟩, [66]⟩]
        ["a.txt", "b.txt"]) ↔ "a.txt" ∈ ["a.txt", "b.txt"])
    ∧ (exceptKeys (loadMembers
        [⟨"a.txt", ⟨1, 1, 1⟩, [65]⟩, ⟨"b.txt", ⟨2, 2, 2⟩, [66]⟩]
        ["a.txt", "b.txt"])).Nodup := by
  have h1 := (load_members_all_or_nothing
    [⟨"a.txt", ⟨1, 1, 1⟩, [65]⟩, ⟨"b.txt", ⟨2, 2, 2⟩, [66]⟩]
    ["a.txt", "zzz"]).1 "zzz" (by decide)
  have h2 := (load_members_all_or_nothing
    [⟨"a.txt", ⟨1, 1, 1⟩, [65]⟩, ⟨"b.txt", ⟨2, 2, 2⟩, [66]⟩]
    ["a.txt", "b.txt"]).2 (by decide)
  exact ⟨h1, h2.1, h2.2.1 "a.txt", h2.2.2⟩

/-- C8: `replace_text("", new)` returns 0 and leaves every node of the
document unchanged, in both the docx and the pptx editor: both guard on
an empty search string before touching any node. -/
theorem replace_empty_old_noop (new : String) (d : Doc) (sl : Slides) :
    docxReplace "" new d = (d, 0) ∧ pptxReplace "" new sl = (sl, 0) := by
  constructor
  · simp [docxReplace]
  · simp [pptxReplace]

theorem string_eq_iff_data {x y : String} : x = y ↔ x.data = y.data := by
  constructor
  · exact congrArg String.data
  · intro h
    cases x
    cases y
    exact congrArg String.mk h

theorem startsWithChars_nil {old : List Char} (h : old ≠ []) :
    startsWithChars old [] = false := by
  cases old with
  | nil => exact absurd rfl h
  | cons a as => rfl

theorem startsWithChars_append {old : List Char} :
    ∀ {s : List Char}, startsWithChars old s = true →
      old ++ s.drop old.length = s := by
  induction old with
  | nil => intro s _; simp
  | cons a as ih =>
      intro s h
      cases s with
      | nil => simp [startsWithChars] at h
      | cons b bs =>
          simp only [startsWithChars, Bool.and_eq_true, decide_eq_true_eq] at h
          obtain ⟨rfl, h2⟩ := h
          simp only [List.length_cons, List.drop_succ_cons, List.cons_append,
            List.cons.injEq, true_and]
          exact ih h2

theorem replaceAllFuel_of_not_contains {old : List Char} (new : List Char) :
    ∀ (fuel : Nat) (s : List Char), containsSub old s = false →
      replaceAllFuel old new fuel s = s := by
  intro fuel
  induction fuel with
  | zero => intro s _; cases s <;> rfl
  | succ n ih =>
      intro s hc
      cases s with
      | nil => rfl
      | cons c rest =>
          simp only [containsSub, Bool.or_eq_false_iff] at hc
          simp [replaceAllFuel, hc.1, ih rest hc.2]

theorem replaceAllFuel_self (old : List Char) :
    ∀ (fuel : Nat) (s : List Char), replaceAllFuel old old fuel s = s := by
  intro fuel
  induction fuel with
  | zero => intro s; cases s <;> rfl
  | succ n ih =>
      intro s
      cases s with
      | nil => rfl
      | cons c rest =>
          by_cases h : startsWithChars old (c :: rest) = true
          · simp only [replaceAllFuel, h, if_true]
            rw [ih]
            exact startsWithChars_append h
          · simp only [Bool.not_eq_true] at h
            simp [replaceAllFuel, h, ih rest]

theorem replaceAllFuel_length {old new : List Char} (hold : old ≠ []) :
    ∀ (fuel : Nat) (s : List Char), s.length ≤ fuel →
      ∃ k, (replaceAllFuel old new fuel s).length + k * old.length
          = s.length + k * new.length
        ∧ (containsSub old s = true → 1 ≤ k) := by
  intro fuel
  induction fuel with
  | zero =>
      intro s hs
      have hnil : s = [] := List.eq_nil_of_length_eq_zero (Nat.le_zero.mp hs)
      subst hnil
      exact ⟨0, by simp [replaceAllFuel], by simp [containsSub, startsWithChars_nil hold]⟩
  | succ n ih =>
      intro s hs
      cases s with
      | nil =>
          exact ⟨0, by simp [replaceAllFuel],
            by simp [containsSub, startsWithChars_nil hold]⟩
      | cons c rest =>
          by_cases h : startsWithChars old (c :: rest) = true
          · have happ := startsWithChars_append h
            have hlen : old.length + ((c :: rest).drop old.length).length
                = (c :: rest).length := by
              conv_rhs => rw [← happ]
              rw [List.length_append]
            have holdpos : 1 ≤ old.length := by
              cases old with
              | nil => exact absurd rfl hold
              | cons x xs => simp
            have hdrop : ((c :: rest).drop old.length).length ≤ n := by
              simp only [List.length_cons] at hlen hs
              omega
            obtain ⟨k0, hk0, _⟩ := ih _ hdrop
            refine ⟨k0 + 1, ?_, fun _ => Nat.le_add_left 1 k0⟩
            simp only [replaceAllFuel, h, if_true, List.length_append]
            rw [Nat.succ_mul, Nat.succ_mul]
            linarith [hk0, hlen]
          · simp only [Bool.not_eq_true] at h
            have hr : rest.length ≤ n := by
              simp only [List.length_cons] at hs
              omega
            obtain ⟨k, hk, hck⟩ := ih rest hr
            refine ⟨k, ?_, ?_⟩
            · simp only [replaceAllFuel, h, Bool.false_eq_true, if_false,
                List.length_cons]
              linarith [hk]
            · intro hcs
              simp only [containsSub, h, Bool.false_or] at hcs
              exact hck hcs

theorem replaceAllFuel_ne_of_eq_length {old new : List Char} (hold : old ≠ [])
    (hlen : old.length = new.length) (hne : old ≠ new) :
    ∀ (fuel : Nat) (s : List Char), containsSub old s = true → s.length ≤ fuel →
      replaceAllFuel old new fuel s ≠ s := by
  intro fuel
  induction fuel with
  | zero =>
      intro s hc hs
      have hnil : s = [] := List.eq_nil_of_length_eq_zero (Nat.le_zero.mp hs)
      subst hnil
      simp [containsSub, startsWithChars_nil hold] at hc
  | succ n ih =>
      intro s hc hs
      cases s with
      | nil => simp [containsSub, startsWithChars_nil hold] at hc
      | cons c rest =>
          by_cases h : startsWithChars old (c :: rest) = true
          · have happ := startsWithChars_append h
            intro heq
            simp only [replaceAllFuel, h, if_true] at heq
            rw [← happ] at heq
            exact hne ((List.append_inj heq hlen.symm).1.symm)
          · simp only [Bool.not_eq_true] at h
            have hcrest : containsSub old rest = true := by
              simpa only [containsSub, h, Bool.false_or] using hc
            have hr : rest.length ≤ n := by
              simp only [List.length_cons] at hs
              omega
            intro heq
            simp only [replaceAllFuel, h, Bool.false_eq_true, if_false,
              List.cons.injEq, true_and] at heq
            exact ih rest hcrest hr heq

theorem replaceAllFuel_ne_of_contains {old new : List Char} (hold : old ≠ [])
    (hne : old ≠ new) {s : List Char} (hc : containsSub old s = true) :
    replaceAllFuel old new s.length s ≠ s := by
  by_cases hlen : old.length = new.length
  · exact replaceAllFuel_ne_of_eq_length hold hlen hne s.length s hc (Nat.le_refl _)
  · intro heq
    obtain ⟨k, hk, hck⟩ := replaceAllFuel_length hold s.length s (Nat.le_refl _)
    rw [heq] at hk
    have hk1 : 1 ≤ k := hck hc
    have hmul : k * old.length = k * new.length := Nat.add_left_cancel hk
    exact hlen (Nat.eq_of_mul_eq_mul_left (by omega) hmul)

theorem sreplace_self {old : String} (hold : old ≠ "") (s : String) :
    sreplace old old s = s := by
  have holdd : old.data ≠ [] := fun h =>
    hold (string_eq_iff_data.mpr (by simpa using h))
  unfold sreplace
  rw [replaceAllFuel_self old.data]

theorem sreplace_ne_iff {old new : String} (hold : old ≠ "") (hne : new ≠ old)
    (s : String) :
    sreplace old new s ≠ s ↔ scontains old s = true := by
  have holdd : old.data ≠ [] := fun h =>
    hold (string_eq_iff_data.mpr (by simpa using h))
  constructor
  · intro hrepl
    by_contra hcon
    simp only [Bool.not_eq_true] at hcon
    apply hrepl
    unfold sreplace
    rw [replaceAllFuel_of_not_contains new.data _ _ hcon]
  · intro hc heq
    have hdata : replaceAllFuel old.data new.data s.data.length s.data = s.data :=
      string_eq_iff_data.mp heq
    have hned : old.data ≠ new.data := fun h =>
      hne (string_eq_iff_data.mpr h.symm)
    exact replaceAllFuel_ne_of_contains holdd hned hc hdata

theorem replaceDoc_spec (old new : String) :
    ∀ d : Doc,
      (replaceDoc old new d).2
        = ((collectTexts d).filter
            (fun t => decide (sreplace old new t ≠ t))).length
      ∧ (replaceDoc old new d).1 = replacedDoc old new d := by
  intro d
  induction d with
  | nil => exact ⟨rfl, rfl⟩
  | cons nd rest ih =>
      by_cases hnd : (isTextNode nd && truthyText nd.text) = true
      · have htext : nd.text = some (nd.text.getD "") := by
          cases h : nd.text with
          | none => rw [h] at hnd; simp [truthyText] at hnd
          | some t => rfl
        by_cases hch : sreplace old new (nd.text.getD "") ≠ nd.text.getD ""
        · constructor
          · simp only [replaceDoc, hnd, if_true, if_pos hch, collectTexts,
              List.filter_cons, decide_eq_true hch, List.length_cons, ih.1]
          · simp only [replaceDoc, hnd, if_true, if_pos hch, replacedDoc,
              List.map_cons, ih.2]
        · rw [Classical.not_not] at hch
          constructor
          · simp only [replaceDoc, hnd, if_true, collectTexts, List.filter_cons,
              hch, List.length_cons, ih.1]
            simp
          · simp only [replaceDoc, hnd, if_true, replacedDoc, List.map_cons,
              ih.2, hch]
            simp only [if_neg (by simp : ¬(nd.text.getD "" ≠ nd.text.getD ""))]
            rw [← htext]
      · simp only [Bool.not_eq_true] at hnd
        constructor
        · simp only [replaceDoc, hnd, Bool.false_eq_true, if_false, collectTexts,
            ih.1]
        · simp only [replaceDoc, hnd, Bool.false_eq_true, if_false, replacedDoc,
            List.map_cons, ih.2]

theorem pptxReplaceSlides_spec (old new : String) :
    ∀ sl : Slides,
      (pptxReplaceSlides old new sl).2
        = ((pptxCollect sl).filter
            (fun t => decide (sreplace old new t ≠ t))).length
      ∧ (pptxReplaceSlides old new sl).1
        = sl.map (fun p => (p.1, replacedDoc old new p.2)) := by
  intro sl
  induction sl with
  | nil => exact ⟨rfl, rfl⟩
  | cons s rest ih =>
      have hd := replaceDoc_spec old new s.2
      constructor
      · simp only [pptxReplaceSlides, pptxCollect, List.filter_append,
          List.length_append, hd.1, ih.1]
      · simp only [pptxReplaceSlides, List.map_cons, hd.2, ih.2]

theorem replacedDoc_self {old : String} (hold : old ≠ "") :
    ∀ d : Doc, replacedDoc old old d = d := by
  intro d
  induction d with
  | nil => rfl
  | cons nd rest ih =>
      simp only [replacedDoc] at ih ⊢
      rw [List.map_cons, ih]
      by_cases hnd : (isTextNode nd && truthyText nd.text) = true
      · have htext : nd.text = some (nd.text.getD "") := by
          cases hh : nd.text with
          | none => rw [hh] at hnd; simp [truthyText] at hnd
          | some t => rfl
        rw [if_pos hnd, sreplace_self hold, ← htext]
      · simp only [Bool.not_eq_true] at hnd
        simp [hnd]

/-- C6: the claim states that every text-bearing node whose text contains
`old` is counted as changed. The code only counts a node when the
replacement alters its text, which fails when `new = old`: on a document
with one `w:t` node of text `"x"`, `replace("x", "x")` returns 0 although
that node's text contains `"x"` (and likewise for the pptx editor). -/
theorem replace_text_not_counting_when_new_eq_old :
    ((collectTexts [⟨"w\x7dt", some "x"⟩]).filter
        (fun t => scontains "x" t)).length = 1
    ∧ (docxReplace "x" "x" [⟨"w\x7dt", some "x"⟩]).2 = 0
    ∧ (pptxReplace "x" "x" [("s1", [⟨"a\x7dt", some "x"⟩])]).2 = 0 := by
  refine ⟨?_, ?_, ?_⟩ <;> decide

/-- C6 (amended): for every non-empty `old` and every document, when
`new ≠ old`, `replace_text` rewrites every text-bearing node with truthy
text by a full substring replacement and returns the number of nodes
whose text contains `old`; when `new = old` the text of every node is
unchanged and the count is 0 (such nodes contain `old` but the
replacement does not alter them, so the code does not count them). This
holds for both the docx and the pptx editor. -/
theorem replace_text_counts_containing_nodes (old new : String) (d : Doc)
    (sl : Slides) (hold : old ≠ "") :
    (new ≠ old →
      (docxReplace old new d).2
        = ((collectTexts d).filter (fun t => scontains old t)).length
      ∧ (docxReplace old new d).1 = replacedDoc old new d
      ∧ (pptxReplace old new sl).2
        = ((pptxCollect sl).filter (fun t => scontains old t)).length
      ∧ (pptxReplace old new sl).1
        = sl.map (fun p => (p.1, replacedDoc old new p.2)))
    ∧ (new = old →
      (docxReplace old new d).2 = 0 ∧ (docxReplace old new d).1 = d
      ∧ (pptxReplace old new sl).2 = 0 ∧ (pptxReplace old new sl).1 = sl) := by
  constructor
  · intro hne
    have hfilter : ∀ ts : List String,
        ts.filter (fun t => decide (sreplace old new t ≠ t))
          = ts.filter (fun t => scontains old t) := by
      intro ts
      apply List.filter_congr
      intro t _
      by_cases hc : scontains old t = true
      · rw [hc]
        exact decide_eq_true ((sreplace_ne_iff hold hne t).mpr hc)
      · simp only [Bool.not_eq_true] at hc
        rw [hc]
        have heq : sreplace old new t = t := by
          by_contra hne'
          rw [(sreplace_ne_iff hold hne t).mp hne'] at hc
          cases hc
        simp [heq]
    have hdx := replaceDoc_spec old new d
    have hpx := pptxReplaceSlides_spec old new sl
    refine ⟨?_, ?_, ?_, ?_⟩
    · rw [show docxReplace old new d = replaceDoc old new d from
        if_neg (by simpa using hold), hdx.1, hfilter]
    · rw [show docxReplace old new d = replaceDoc old new d from
        if_neg (by simpa using hold), hdx.2]
    · rw [show pptxReplace old new sl = pptxReplaceSlides old new sl from
        if_neg (by simpa using hold), hpx.1, hfilter]
    · rw [show pptxReplace old new sl = pptxReplaceSlides old new sl from
        if_neg (by simpa using hold), hpx.2]
  · intro heq
    rw [heq]
    have hdx := replaceDoc_spec old old d
    have hpx := pptxReplaceSlides_spec old old sl
    have hzero : ∀ ts : List String,
        ts.filter (fun t => decide (sreplace old old t ≠ t)) = [] := by
      intro ts
      rw [List.filter_eq_nil_iff]
      intro t _
      simp [sreplace_self hold t]
    have hmap : ∀ sl' : Slides,
        sl'.map (fun p => (p.1, replacedDoc old old p.2)) = sl' := by
      intro sl'
      induction sl' with
      | nil => rfl
      | cons p rest ih => simp [replacedDoc_self hold, ih]
    refine ⟨?_, ?_, ?_, ?_⟩
    · rw [show docxReplace old old d = replaceDoc old old d from if_neg hold,
        hdx.1, hzero]
      rfl
    · rw [show docxReplace old old d = replaceDoc old old d from if_neg hold,
        hdx.2, replacedDoc_self hold]
    · rw [show pptxReplace old old sl = pptxReplaceSlides old old sl from
        if_neg hold, hpx.1, hzero]
      rfl
    · rw [show pptxReplace old old sl = pptxReplaceSlides old old sl from
        if_neg hold, hpx.2, hmap]

/-- C6 witness: on a two-node document ("Hello", " world") and on a
one-slide presentation ("world world"), `replace("world", "DOCX")` counts
exactly the nodes whose text contains "world", and `replace("world",
"world")` counts 0. -/
theorem replace_text_counts_containing_nodes_witness :
    (docxReplace "world" "DOCX"
        [⟨"w\x7dt", some "Hello"⟩, ⟨"w\x7dt", some " world"⟩]).2
      = ((collectTexts [⟨"w\x7dt", some "Hello"⟩, ⟨"w\x7dt", some " world"⟩]).filter
          (fun t => scontains "world" t)).length
    ∧ (pptxReplace "world" "DOCX" [("s1", [⟨"a\x7dt", some "world world"⟩])]).2
      = ((pptxCollect [("s1", [⟨"a\x7dt", some "world world"⟩])]).filter
          (fun t => scontains "world" t)).length
    ∧ (docxReplace "world" "world"
        [⟨"w\x7dt", some "Hello"⟩, ⟨"w\x7dt", some " world"⟩]).2 = 0 := by
  have h := replace_text_counts_containing_nodes "world" "DOCX"
    [⟨"w\x7dt", some "Hello"⟩, ⟨"w\x7dt", some " world"⟩]
    [("s1", [⟨"a\x7dt", some "world world"⟩])] (by decide)
  have h2 := replace_text_counts_containing_nodes "world" "world"
    [⟨"w\x7dt", some "Hello"⟩, ⟨"w\x7dt", some " world"⟩]
    [("s1", [⟨"a\x7dt", some "world world"⟩])] (by decide)
  exact ⟨(h.1 (by decide)).1, (h.1 (by decide)).2.2.1, (h2.2 rfl).1⟩

theorem count_joinSep (c : Char) :
    ∀ ts : List String, (∀ t ∈ ts, c ∉ t.data) →
      (joinSep (String.mk [c]) ts).data.count c = ts.length - 1 := by
  intro ts
  induction ts with
  | nil => intro _; simp [joinSep]
  | cons t rest ih =>
      cases rest with
      | nil =>
          intro h
          have hth := h t (List.mem_cons_self t [])
          simp [joinSep, List.count_eq_zero.mpr hth]
      | cons u us =>
          intro h
          have hth : c ∉ t.data := h t (List.mem_cons_self _ _)
          have hrest : ∀ x ∈ u :: us, c ∉ x.data := fun x hx =>
            h x (List.mem_cons_of_mem _ hx)
          have ihr := ih hrest
          have hone : ((String.mk [c]).data.count c) = 1 := by
            show List.count c [c] = 1
            simp
          simp only [joinSep, String.data_append, List.count_append]
          rw [List.count_eq_zero.mpr hth, ihr, hone]
          simp only [List.length_cons]
          omega

/-- C9: `get_text` joins exactly the text-bearing nodes whose text is
truthy (present and non-empty): a node with absent or empty text
contributes neither text nor a separator slot; when no node contributes
the result is the empty string; and for a one-character separator that
occurs in no collected text, the number of separator occurrences in the
output is one less than the number of contributing nodes (0 when there
are none). Holds for both editors. -/
theorem get_text_joins_nonempty_texts (d : Doc) (sl : Slides) (sep : String)
    (c : Char) (nd : XNode)
    (hd : ∀ t ∈ collectTexts d, c ∉ t.data)
    (hsl : ∀ t ∈ pptxCollect sl, c ∉ t.data)
    (hnd : truthyText nd.text = false) :
    (docxGetText (String.mk [c]) d).data.count c = (collectTexts d).length - 1
    ∧ (pptxGetText (String.mk [c]) sl).data.count c = (pptxCollect sl).length - 1
    ∧ (collectTexts d = [] → docxGetText sep d = "")
    ∧ collectTexts (nd :: d) = collectTexts d := by
  refine ⟨count_joinSep c _ hd, count_joinSep c _ hsl, ?_, ?_⟩
  · intro h
    simp [docxGetText, h, joinSep]
  · simp [collectTexts, hnd]

/-- C9 witness: a four-node document (texts "Hello", absent, "", "world")
collects exactly two texts and its space-joined output contains one
space; a two-slide presentation with one text each gives one space; and
prepending a node with empty text changes nothing. -/
theorem get_text_joins_nonempty_texts_witness :
    (docxGetText (String.mk [' '])
        [⟨"w\x7dt", some "Hello"⟩, ⟨"w\x7dt", none⟩, ⟨"w\x7dt", some ""⟩,
          ⟨"w\x7dt", some "world"⟩]).data.count ' '
      = (collectTexts [⟨"w\x7dt", some "Hello"⟩, ⟨"w\x7dt", none⟩,
          ⟨"w\x7dt", some ""⟩, ⟨"w\x7dt", some "world"⟩]).length - 1
    ∧ (pptxGetText (String.mk [' '])
        [("s1", [⟨"a\x7dt", some "Hi"⟩]), ("s2", [⟨"a\x7dt", some "there"⟩])]).data.count ' '
      = (pptxCollect [("s1", [⟨"a\x7dt", some "Hi"⟩]),
          ("s2", [⟨"a\x7dt", some "there"⟩])]).length - 1
    ∧ collectTexts (⟨"w\x7dt", some ""⟩ ::
        [⟨"w\x7dt", some "Hello"⟩, ⟨"w\x7dt", none⟩, ⟨"w\x7dt", some ""⟩,
          ⟨"w\x7dt", some "world"⟩])
      = collectTexts [⟨"w\x7dt", some "Hello"⟩, ⟨"w\x7dt", none⟩,
          ⟨"w\x7dt", some ""⟩, ⟨"w\x7dt", some "world"⟩] := by
  have h := get_text_joins_nonempty_texts
    [⟨"w\x7dt", some "Hello"⟩, ⟨"w\x7dt", none⟩, ⟨"w\x7dt", some ""⟩,
      ⟨"w\x7dt", some "world"⟩]
    [("s1", [⟨"a\x7dt", some "Hi"⟩]), ("s2", [⟨"a\x7dt", some "there"⟩])]
    "|" ' ' ⟨"w\x7dt", some ""⟩ (by decide) (by decide) (by decide)
  exact ⟨h.1, h.2.1, h.2.2.2⟩

theorem mkdirP_files (fs : FS) (p : String) : (mkdirP fs p).files = fs.files := by
  unfold mkdirP
  split <;> rfl

/-- C3: the claim says the copy layer swallows a file-not-found for a
source that vanished and skips the file. The code path actually used for
copies — `copy_files` delegating to `transfer_files` — does not: starting
from an empty filesystem, transferring the missing file `gone.txt`
aborts with `FileNotFoundError` instead of returning with the file
skipped. -/
theorem transfer_copy_missing_source_errors :
    transferFiles ⟨[], []⟩ ["gone.txt"] "dst" TMode.copy OnConflict.overwrite false
      = Except.error (TError.fileNotFound "gone.txt") := by
  rfl

/-- C3 (amended): the legacy per-file helper `_copy_file_action` does
swallow `FileNotFoundError` from `shutil.copy2` and leaves the
filesystem as it was; but the transfer loop that `copy_files` actually
invokes (`transfer_files` with mode `copy` and conflict policy
`overwrite`) propagates the error for a vanished source, aborting the
whole call instead of skipping the file. -/
theorem copy_action_swallows_but_transfer_propagates
    (fs : FS) (src dest destRoot : String) (rest : List String)
    (ops : List (String × String)) (h : alookup fs.files src = none) :
    copyFileAction fs src dest false = fs
    ∧ transferGo destRoot TMode.copy OnConflict.overwrite false fs (src :: rest) ops
        = Except.error (TError.fileNotFound src)
    ∧ transferFiles fs (src :: rest) destRoot TMode.copy OnConflict.overwrite false
        = Except.error (TError.fileNotFound src) := by
  have hgo : ∀ (fs' : FS) (ops' : List (String × String)),
      alookup fs'.files src = none →
      transferGo destRoot TMode.copy OnConflict.overwrite false fs' (src :: rest) ops'
        = Except.error (TError.fileNotFound src) := by
    intro fs' ops' h'
    simp [transferGo, fsCopy2, h']
  refine ⟨?_, hgo fs ops h, ?_⟩
  · simp [copyFileAction, fsCopy2, h]
  · unfold transferFiles
    exact hgo _ _ (by rw [mkdirP_files]; exact h)

/-- C3 witness: with only `present.txt` on disk, the legacy helper leaves
the filesystem unchanged for the missing `gone.txt`, while the transfer
layer fails with `FileNotFoundError` on the same input. -/
theorem copy_action_swallows_but_transfer_propagates_witness :
    copyFileAction ⟨[("present.txt", [1])], []⟩ "gone.txt" "dst/gone.txt" false
      = ⟨[("present.txt", [1])], []⟩
    ∧ transferFiles ⟨[("present.txt", [1])], []⟩ ["gone.txt"] "dst"
        TMode.copy OnConflict.overwrite false
      = Except.error (TError.fileNotFound "gone.txt") := by
  have h := copy_action_swallows_but_transfer_propagates
    ⟨[("present.txt", [1])], []⟩ "gone.txt" "dst/gone.txt" "dst" [] [] (by decide)
  exact ⟨h.1, h.2.2⟩

theorem alookup_append_of_none {α : Type} {l1 : List (String × α)}
    (l2 : List (String × α)) {k : String} (h : alookup l1 k = none) :
    alookup (l1 ++ l2) k = alookup l2 k := by
  induction l1 with
  | nil => rfl
  | cons p rest ih =>
      by_cases hp : p.1 = k
      · simp [alookup, hp] at h
      · simp only [alookup, hp, if_false, List.cons_append] at h ⊢
        exact ih h

theorem alookup_append_of_some {α : Type} {l1 : List (String × α)}
    (l2 : List (String × α)) {k : String} {v : α} (h : alookup l1 k = some v) :
    alookup (l1 ++ l2) k = some v := by
  induction l1 with
  | nil => cases h
  | cons p rest ih =>
      by_cases hp : p.1 = k
      · simp only [alookup, hp, if_true, List.cons_append] at h ⊢
        exact h
      · simp only [alookup, hp, if_false, List.cons_append] at h ⊢
        exact ih h

theorem alookup_map_update_self {α : Type} {l : List (String × α)} {k : String}
    (v : α) (h : k ∈ l.map Prod.fst) :
    alookup (l.map (fun p => if p.1 = k then (k, v) else p)) k = some v := by
  induction l with
  | nil => cases h
  | cons p rest ih =>
      by_cases hp : p.1 = k
      · simp [List.map_cons, hp, alookup]
      · have hrest : k ∈ rest.map Prod.fst := by
          rcases List.mem_cons.mp h with heq | hm
          · exact absurd heq.symm hp
          · exact hm
        simp [List.map_cons, hp, alookup, ih hrest]

theorem alookup_map_update_ne {α : Type} {l : List (String × α)} {k k' : String}
    (v : α) (h : k' ≠ k) :
    alookup (l.map (fun p => if p.1 = k then (k, v) else p)) k' = alookup l k' := by
  induction l with
  | nil => rfl
  | cons p rest ih =>
      by_cases hp : p.1 = k
      · have hpk : ¬p.1 = k' := by rw [hp]; exact fun hc => h hc.symm
        have hkk : ¬(k : String) = k' := fun hc => h hc.symm
        simp [List.map_cons, hp, alookup, hpk, hkk, ih]
      · by_cases hpk : p.1 = k'
        · rw [List.map_cons, if_neg hp]
          simp [alookup, hpk]
        · rw [List.map_cons, if_neg hp]
          simp [alookup, hpk, ih]

theorem alookup_dictInsert_self {α : Type} (l : List (String × α)) (k : String)
    (v : α) : alookup (dictInsert l k v) k = some v := by
  unfold dictInsert
  by_cases h : k ∈ l.map Prod.fst
  · rw [if_pos h]
    exact alookup_map_update_self v h
  · rw [if_neg h]
    rw [alookup_append_of_none _ ((alookup_eq_none_iff l k).mpr h)]
    simp [alookup]

theorem alookup_dictInsert_ne {α : Type} (l : List (String × α)) (k : String)
    (v : α) (k' : String) (h : k' ≠ k) :
    alookup (dictInsert l k v) k' = alookup l k' := by
  unfold dictInsert
  by_cases hm : k ∈ l.map Prod.fst
  · rw [if_pos hm]
    exact alookup_map_update_ne v h
  · rw [if_neg hm]
    cases hl : alookup l k' with
    | some v' => exact alookup_append_of_some _ hl
    | none =>
        rw [alookup_append_of_none _ hl]
        simp [alookup, Ne.symm h, h]

theorem transferGo_ops_shape (destRoot : String) (mode : TMode)
    (pol : OnConflict) (dry : Bool) :
    ∀ (files : List String) (fs : FS) (ops : List (String × String))
      (fs' : FS) (res : List (String × String)),
      transferGo destRoot mode pol dry fs files ops = Except.ok (fs', res) →
      ∀ pr ∈ res, pr ∈ ops ∨
        (pr.1 ∈ files ∧ pr.2 = pathJoin destRoot (lastComponent pr.1)) := by
  intro files
  induction files with
  | nil =>
      intro fs ops fs' res h pr hpr
      simp only [transferGo, Except.ok.injEq, Prod.mk.injEq] at h
      exact Or.inl (h.2 ▸ hpr)
  | cons src rest ih =>
      intro fs ops fs' res h pr hpr
      have step : ∀ fs0 : FS,
          transferGo destRoot mode pol dry fs0 rest
              (ops ++ [(src, pathJoin destRoot (lastComponent src))])
            = Except.ok (fs', res) →
          pr ∈ ops ∨
            (pr.1 ∈ src :: rest ∧ pr.2 = pathJoin destRoot (lastComponent pr.1)) := by
        intro fs0 h0
        rcases ih fs0 _ fs' res h0 pr hpr with hin | hshape
        · rcases List.mem_append.mp hin with hl | hr
          · exact Or.inl hl
          · have : pr = (src, pathJoin destRoot (lastComponent src)) := by
              simpa using hr
            subst this
            exact Or.inr ⟨List.mem_cons_self _ _, rfl⟩
        · exact Or.inr ⟨List.mem_cons_of_mem _ hshape.1, hshape.2⟩
      simp only [transferGo] at h
      split at h
      · rcases ih fs ops fs' res h pr hpr with hin | hshape
        · exact Or.inl hin
        · exact Or.inr ⟨List.mem_cons_of_mem _ hshape.1, hshape.2⟩
      · split at h
        · cases h
        · split at h
          · exact step fs h
          · split at h
            · split at h
              · exact step _ h
              · cases h
            · split at h
              · exact step _ h
              · cases h

/-- C10: the transfer layer flattens directory structure — every returned
`(source, destination)` pair has destination `dest_root/basename(source)`
— so two inputs with the same base name share one destination; under
conflict policy `overwrite` (mode `copy`, no dry-run) the later input in
order wins: after transferring `[a, b]` with equal base names, the single
destination holds `b`'s bytes. -/
theorem transfer_flattens_and_last_wins
    (fs : FS) (files : List String) (destRoot : String) (mode : TMode)
    (pol : OnConflict) (dry : Bool) (fs' : FS) (res : List (String × String))
    (a b : String) (da db : List Nat) :
    (transferFiles fs files destRoot mode pol dry = Except.ok (fs', res) →
      ∀ pr ∈ res, pr.1 ∈ files ∧ pr.2 = pathJoin destRoot (lastComponent pr.1))
    ∧ (lastComponent a = lastComponent b →
       alookup fs.files a = some da →
       alookup fs.files b = some db →
       b ≠ pathJoin destRoot (lastComponent a) →
       okOps (transferFiles fs [a, b] destRoot TMode.copy OnConflict.overwrite false)
         = some [(a, pathJoin destRoot (lastComponent a)),
             (b, pathJoin destRoot (lastComponent a))]
       ∧ (okFS (transferFiles fs [a, b] destRoot TMode.copy
             OnConflict.overwrite false)).map
           (fun f => alookup f.files (pathJoin destRoot (lastComponent a)))
         = some (some db)) := by
  constructor
  · intro h pr hpr
    rcases transferGo_ops_shape destRoot mode pol dry files _ _ _ _ h pr hpr with
      hin | hshape
    · cases hin
    · exact hshape
  · intro hab ha hb hbne
    have hstep : ∀ (fs0 : FS) (src : String) (rest : List String)
        (ops : List (String × String)) (d : List Nat),
        alookup fs0.files src = some d →
        transferGo destRoot TMode.copy OnConflict.overwrite false fs0 (src :: rest) ops
          = transferGo destRoot TMode.copy OnConflict.overwrite false
              ⟨dictInsert fs0.files (pathJoin destRoot (lastComponent src)) d, fs0.dirs⟩
              rest (ops ++ [(src, pathJoin destRoot (lastComponent src))]) := by
      intro fs0 src rest ops d hd
      simp [transferGo, fsCopy2, hd]
    have hfsa : alookup (mkdirP fs destRoot).files a = some da := by
      rw [mkdirP_files]; exact ha
    have hfsb : alookup
        (dictInsert (mkdirP fs destRoot).files
          (pathJoin destRoot (lastComponent a)) da) b = some db := by
      rw [alookup_dictInsert_ne _ _ _ _ hbne, mkdirP_files]
      exact hb
    have hrun : transferFiles fs [a, b] destRoot TMode.copy OnConflict.overwrite false
        = Except.ok
            (⟨dictInsert
                (dictInsert (mkdirP fs destRoot).files
                  (pathJoin destRoot (lastComponent a)) da)
                (pathJoin destRoot (lastComponent a)) db,
              (mkdirP fs destRoot).dirs⟩,
             [(a, pathJoin destRoot (lastComponent a)),
              (b, pathJoin destRoot (lastComponent a))]) := by
      unfold transferFiles
      rw [hstep (mkdirP fs destRoot) a [b] [] da hfsa]
      rw [show pathJoin destRoot (lastComponent a)
            = pathJoin destRoot (lastComponent b) from by rw [hab]] at hfsb ⊢
      rw [hstep _ b [] _ db hfsb]
      simp [transferGo]
    rw [hrun]
    constructor
    · rfl
    · simp only [okFS, Option.map_some']
      rw [alookup_dictInsert_self]

/-- C10 witness: transferring `x/f.txt` then `y/f.txt` (same base name)
into `dst` under `overwrite` flattens both to `dst/f.txt`, reports both
pairs, and leaves `y/f.txt`'s bytes at the destination. -/
theorem transfer_flattens_and_last_wins_witness :
    (("x/f.txt" : String) ∈ ["x/f.txt", "y/f.txt"]
      ∧ "dst/f.txt" = pathJoin "dst" (lastComponent "x/f.txt"))
    ∧ okOps (transferFiles ⟨[("x/f.txt", [1]), ("y/f.txt", [2])], ["dst"]⟩
        ["x/f.txt", "y/f.txt"] "dst" TMode.copy OnConflict.overwrite false)
      = some [("x/f.txt", pathJoin "dst" (lastComponent "x/f.txt")),
          ("y/f.txt", pathJoin "dst" (lastComponent "x/f.txt"))]
    ∧ (okFS (transferFiles ⟨[("x/f.txt", [1]), ("y/f.txt", [2])], ["dst"]⟩
        ["x/f.txt", "y/f.txt"] "dst" TMode.copy OnConflict.overwrite false)).map
        (fun f => alookup f.files (pathJoin "dst" (lastComponent "x/f.txt")))
      = some (some [2]) := by
  have h := transfer_flattens_and_last_wins
    ⟨[("x/f.txt", [1]), ("y/f.txt", [2])], ["dst"]⟩ ["x/f.txt", "y/f.txt"]
    "dst" TMode.copy OnConflict.overwrite false
    ⟨[("x/f.txt", [1]), ("y/f.txt", [2]), ("dst/f.txt", [2])], ["dst"]⟩
    [("x/f.txt", "dst/f.txt"), ("y/f.txt", "dst/f.txt")]
    "x/f.txt" "y/f.txt" [1] [2]
  have h2 := h.2 (by decide) (by decide) (by decide) (by decide)
  exact ⟨h.1 (by rfl) ("x/f.txt", "dst/f.txt") (by decide), h2.1, h2.2⟩

end Filesmith
